import Mathlib

set_option maxRecDepth 100000

/-
Verification of the core of a minimal blockchain node (`blockchain.py`).

The development shallowly embeds the program:
* machine-independent Python integers become `Nat`/`Int`;
* `hashlib.sha256(...).hexdigest()` is embedded by a full SHA-256
  implementation over byte lists (`sha256Nat`, `sha256hexChars`);
* the block hash `Blockchain.hash` (SHA-256 of the canonical JSON dump of a
  block, whose text depends on Python float formatting of timestamps) is kept
  as an explicit function parameter `hashStr : Block → String`; every theorem
  quantifies over it, hence holds for the concrete JSON-based hash as well;
* fallible code (Python `IndexError` on `chain[0]` / `chain[-1]`) returns
  `Option`, with `none` for a raised exception;
* the unbounded `while` loop of `proof_of_work` takes explicit fuel;
* `time()` and the node identifier are passed as parameters;
* peer HTTP responses of `resolve_conflicts` are passed as a list of
  `PeerResp` values, a non-200/unreachable answer being `PeerResp.failure`.
-/

/-! ## SHA-256 over byte lists (embedding of `hashlib.sha256`) -/

def w32 (n : Nat) : Nat := n % 4294967296

def add32 (a b : Nat) : Nat := (a + b) % 4294967296

def rotr32 (n x : Nat) : Nat := w32 ((x >>> n) ||| (x <<< (32 - n)))

def shaCh (x y z : Nat) : Nat := (x &&& y) ^^^ ((x ^^^ 4294967295) &&& z)

def shaMaj (x y z : Nat) : Nat := (x &&& y) ^^^ (x &&& z) ^^^ (y &&& z)

def bigSigma0 (x : Nat) : Nat := (rotr32 2 x) ^^^ (rotr32 13 x) ^^^ (rotr32 22 x)

def bigSigma1 (x : Nat) : Nat := (rotr32 6 x) ^^^ (rotr32 11 x) ^^^ (rotr32 25 x)

def smallSigma0 (x : Nat) : Nat := (rotr32 7 x) ^^^ (rotr32 18 x) ^^^ (x >>> 3)

def smallSigma1 (x : Nat) : Nat := (rotr32 17 x) ^^^ (rotr32 19 x) ^^^ (x >>> 10)

def shaK : List Nat :=
  [1116352408, 1899447441, 3049323471, 3921009573, 961987163, 1508970993,
   2453635748, 2870763221, 3624381080, 310598401, 607225278, 1426881987,
   1925078388, 2162078206, 2614888103, 3248222580, 3835390401, 4022224774,
   264347078, 604807628, 770255983, 1249150122, 1555081692, 1996064986,
   2554220882, 2821834349, 2952996808, 3210313671, 3336571891, 3584528711,
   113926993, 338241895, 666307205, 773529912, 1294757372, 1396182291,
   1695183700, 1986661051, 2177026350, 2456956037, 2730485921, 2820302411,
   3259730800, 3345764771, 3516065817, 3600352804, 4094571909, 275423344,
   430227734, 506948616, 659060556, 883997877, 958139571, 1322822218,
   1537002063, 1747873779, 1955562222, 2024104815, 2227730452, 2361852424,
   2428436474, 2756734187, 3204031479, 3329325298]

structure Hash8 where
  a : Nat
  b : Nat
  c : Nat
  d : Nat
  e : Nat
  f : Nat
  g : Nat
  h : Nat
deriving Repr, DecidableEq

def shaRound (st : Hash8) (kw : Nat × Nat) : Hash8 :=
  let t1 := add32 st.h (add32 (bigSigma1 st.e) (add32 (shaCh st.e st.f st.g) (add32 kw.1 kw.2)))
  let t2 := add32 (bigSigma0 st.a) (shaMaj st.a st.b st.c)
  ⟨add32 t1 t2, st.a, st.b, st.c, add32 st.d t1, st.e, st.f, st.g⟩

def extendW : Nat → List Nat → List Nat
  | 0, ws => ws
  | n + 1, ws =>
    extendW n (ws ++ [add32 (add32 (smallSigma1 (ws.getD (ws.length - 2) 0)) (ws.getD (ws.length - 7) 0))
                           (add32 (smallSigma0 (ws.getD (ws.length - 15) 0)) (ws.getD (ws.length - 16) 0))])

def words16 (blk : List Nat) : List Nat :=
  (List.range 16).map (fun i =>
    ((blk.getD (4 * i) 0) <<< 24) + ((blk.getD (4 * i + 1) 0) <<< 16) +
    ((blk.getD (4 * i + 2) 0) <<< 8) + blk.getD (4 * i + 3) 0)

def shaCompress (st : Hash8) (blk : List Nat) : Hash8 :=
  let r := (shaK.zip (extendW 48 (words16 blk))).foldl shaRound st
  ⟨add32 st.a r.a, add32 st.b r.b, add32 st.c r.c, add32 st.d r.d,
   add32 st.e r.e, add32 st.f r.f, add32 st.g r.g, add32 st.h r.h⟩

def shaH0 : Hash8 :=
  ⟨1779033703, 3144134277, 1013904242, 2773480762, 1359893119, 2600822924, 528734635, 1541459225⟩

def padBytes (msg : List Nat) : List Nat :=
  msg ++ [128] ++ List.replicate ((64 - ((msg.length + 9) % 64)) % 64) 0 ++
    (List.range 8).map (fun i => ((8 * msg.length) >>> (8 * (7 - i))) % 256)

def shaBlocks (msg : List Nat) : List (List Nat) :=
  (List.range (msg.length / 64)).map (fun i => (msg.drop (64 * i)).take 64)

def sha256Words (msg : List Nat) : Hash8 :=
  (shaBlocks (padBytes msg)).foldl shaCompress shaH0

def sha256Nat (msg : List Nat) : Nat :=
  let st := sha256Words msg
  [st.a, st.b, st.c, st.d, st.e, st.f, st.g, st.h].foldl (fun acc w => acc * 4294967296 + w) 0

def hexDigit (d : Nat) : Char := if d < 10 then Char.ofNat (48 + d) else Char.ofNat (87 + d)

def hexChars (n : Nat) : List Char :=
  (List.range 64).map (fun i => hexDigit (n / 16 ^ (63 - i) % 16))

def sha256hexChars (msg : List Nat) : List Char := hexChars (sha256Nat msg)

def strBytes (s : String) : List Nat := s.data.map Char.toNat

/-- Embedding of `Blockchain.valid_proof`: SHA-256 over the concatenated
decimal forms of the two proofs, accepting when the hex digest starts `"00"`
(the source's `guess_hash[:2] == '00'`). -/
def validProof (last_proof proof : Nat) : Bool :=
  (sha256hexChars (strBytes (toString last_proof ++ toString proof))).take 2 == ['0', '0']

/-! ## Data model -/

structure Transaction where
  sender : String
  recipient : String
  amount : Int
deriving Repr, DecidableEq

/-- A Python value stored in a block's `previous_hash` field: either the
integer sentinel (`1` for the genesis block) or a hex digest string. -/
inductive HashVal where
  | intVal : Nat → HashVal
  | strVal : String → HashVal
deriving Repr, DecidableEq

structure Block where
  index : Nat
  timestamp : Nat
  transactions : List Transaction
  proof : Nat
  previous_hash : HashVal
deriving Repr, DecidableEq

/-- The mutable state of a `Blockchain` object: `chain`,
`current_transactions` and the registered `nodes` (kept as a duplicate-free
list, Python's `set`). -/
structure NodeState where
  chain : List Block
  current_transactions : List Transaction
  nodes : List String
deriving Repr, DecidableEq

/-- `Blockchain.hash` produces a hex digest string; in block fields it lives
as a `HashVal.strVal`. The digest function itself stays a parameter
(`hashStr`), see the header comment. -/
def hashB (hashStr : Block → String) (b : Block) : HashVal := HashVal.strVal (hashStr b)

/-! ## Operations of class `Blockchain` -/

/-- The loop of `Blockchain.valid_chain`, `last_block` being `chain[0]` at
entry and `rest` the blocks from index 1 on. -/
def validChainLoop (hashStr : Block → String) : Block → List Block → Bool
  | _, [] => true
  | last_block, block :: rest =>
    if block.previous_hash ≠ hashB hashStr last_block then false
    else if validProof last_block.proof block.proof = false then false
    else validChainLoop hashStr block rest

/-- Embedding of `Blockchain.valid_chain`. `chain[0]` raises `IndexError` on
an empty list, hence `none` there. -/
def validChain (hashStr : Block → String) : List Block → Option Bool
  | [] => none
  | b :: rest => some (validChainLoop hashStr b rest)

/-- Python truthiness test in `new_block`'s `previous_hash or ...`:
`None`, `0` and `""` are falsy. -/
def isFalsy : Option HashVal → Bool
  | none => true
  | some (HashVal.intVal n) => n == 0
  | some (HashVal.strVal s) => s == ""

/-- Embedding of `Blockchain.new_block`. `now` is the value of `time()`.
`self.chain[-1]` raises on an empty chain, hence the `Option`; it is only
evaluated when `previous_hash` is falsy (Python `or` short-circuits). -/
def newBlock (hashStr : Block → String) (st : NodeState) (proof : Nat)
    (previous_hash : Option HashVal) (now : Nat) : Option (Block × NodeState) :=
  match (if isFalsy previous_hash then st.chain.getLast?.map (hashB hashStr) else previous_hash) with
  | none => none
  | some ph =>
    let block : Block := ⟨st.chain.length + 1, now, st.current_transactions, proof, ph⟩
    some (block, ⟨st.chain ++ [block], [], st.nodes⟩)

def emptyNode : NodeState := ⟨[], [], []⟩

/-- Embedding of `Blockchain.__init__`: starting from empty state, create the
genesis block via `new_block(previous_hash=1, proof=100)`. -/
def initLedger (hashStr : Block → String) (now : Nat) : Option NodeState :=
  (newBlock hashStr emptyNode 100 (some (HashVal.intVal 1)) now).map Prod.snd

/-- Embedding of the `last_block` property (`self.chain[-1]`). -/
def lastBlock (st : NodeState) : Option Block := st.chain.getLast?

/-- Embedding of `Blockchain.new_transaction`: append to the pending buffer,
then return `last_block['index'] + 1` (which raises on an empty chain). -/
def newTransaction (st : NodeState) (sender recipient : String) (amount : Int) :
    Option (Nat × NodeState) :=
  let st1 : NodeState := ⟨st.chain, st.current_transactions ++ [⟨sender, recipient, amount⟩], st.nodes⟩
  (lastBlock st1).map (fun lb => (lb.index + 1, st1))

/-- Embedding of `Blockchain.register_node`, taking the already-parsed
`netloc` of the address; `set.add` keeps one copy of each entry. -/
def registerNode (st : NodeState) (netloc : String) : NodeState :=
  if netloc ∈ st.nodes then st else ⟨st.chain, st.current_transactions, st.nodes ++ [netloc]⟩

/-- The `while` loop of `Blockchain.proof_of_work` with explicit fuel:
`none` means the fuel ran out before a valid proof was found. -/
def proofOfWorkAux : Nat → Nat → Nat → Option Nat
  | 0, _, _ => none
  | fuel + 1, last_proof, proof =>
    if validProof last_proof proof then some proof else proofOfWorkAux fuel last_proof (proof + 1)

/-- Embedding of `Blockchain.proof_of_work`, starting the search at 0. -/
def proofOfWork (fuel last_proof : Nat) : Option Nat := proofOfWorkAux fuel last_proof 0

/-- One peer's answer to `GET /chain` during `resolve_conflicts`:
`failure` is a non-200 response, `success length chain` a 200 response with
its reported `length` and `chain` fields. -/
inductive PeerResp where
  | failure : PeerResp
  | success : Nat → List Block → PeerResp
deriving Repr, DecidableEq

/-- The scanning loop of `Blockchain.resolve_conflicts`: `maxLen` is
`max_length`, `best` is `new_chain`. An `IndexError` raised by `valid_chain`
propagates (`none`). `valid_chain` is only invoked when
`length > max_length` (Python `and` short-circuits). -/
def resolveLoop (hashStr : Block → String) :
    Nat → Option (List Block) → List PeerResp → Option (Option (List Block))
  | _, best, [] => some best
  | maxLen, best, PeerResp.failure :: rest => resolveLoop hashStr maxLen best rest
  | maxLen, best, PeerResp.success len c :: rest =>
    if maxLen < len then
      match validChain hashStr c with
      | none => none
      | some true => resolveLoop hashStr len (some c) rest
      | some false => resolveLoop hashStr maxLen best rest
    else resolveLoop hashStr maxLen best rest

/-- Embedding of `Blockchain.resolve_conflicts`; the final
`if new_chain:` is Python truthiness, where both `None` and `[]` are falsy. -/
def resolveConflicts (hashStr : Block → String) (st : NodeState) (resps : List PeerResp) :
    Option (Bool × NodeState) :=
  match resolveLoop hashStr st.chain.length none resps with
  | none => none
  | some (some (b :: c)) => some (true, ⟨b :: c, st.current_transactions, st.nodes⟩)
  | some (some []) => some (false, st)
  | some none => some (false, st)

/-- Embedding of the `/mine` route handler: find a proof for the last
block's proof, append the mining-reward transaction
`{sender: "0", recipient: node_identifier, amount: 1}`, then forge the block
with `new_block(proof)` (no explicit `previous_hash`). -/
def mine (hashStr : Block → String) (st : NodeState) (fuel : Nat) (nodeId : String) (now : Nat) :
    Option (Block × NodeState) :=
  match lastBlock st with
  | none => none
  | some last_block =>
    match proofOfWork fuel last_block.proof with
    | none => none
    | some proof =>
      match newTransaction st "0" nodeId 1 with
      | none => none
      | some (_, st1) => newBlock hashStr st1 proof none now

/-! ## Specification predicates -/

/-- The pairwise check of `valid_chain`: the later block points to the hash
of the earlier one and extends its proof of work. -/
def linked (hashStr : Block → String) (prev cur : Block) : Prop :=
  cur.previous_hash = hashB hashStr prev ∧ validProof prev.proof cur.proof = true

/-- A peer response whose `chain` field is a non-empty list (every answer an
actual node running this program can give). -/
def respNonempty : PeerResp → Prop
  | PeerResp.failure => True
  | PeerResp.success _ c => c ≠ []

instance (r : PeerResp) : Decidable (respNonempty r) :=
  match r with
  | PeerResp.failure => Decidable.isTrue trivial
  | PeerResp.success _ c => inferInstanceAs (Decidable (c ≠ []))

/-- A response that wins against a local chain of length `n`: reported
length strictly greater than `n` and a chain passing `valid_chain`. -/
def goodRespB (hashStr : Block → String) (n : Nat) : PeerResp → Bool
  | PeerResp.failure => false
  | PeerResp.success len c => decide (n < len) && decide (validChain hashStr c = some true)

/-- The index invariant: `chain[i].index == i + 1` in 0-based terms. -/
def indexOk (c : List Block) : Prop :=
  ∀ (i : Nat) (hi : i < c.length), (c.get ⟨i, hi⟩).index = i + 1

instance (c : List Block) : Decidable (indexOk c) :=
  inferInstanceAs (Decidable (∀ (i : Nat) (hi : i < c.length), (c.get ⟨i, hi⟩).index = i + 1))

/-- A peer response whose reported chain satisfies the index invariant. -/
def respIndexOk : PeerResp → Prop
  | PeerResp.failure => True
  | PeerResp.success _ c => indexOk c

instance (r : PeerResp) : Decidable (respIndexOk r) :=
  match r with
  | PeerResp.failure => Decidable.isTrue trivial
  | PeerResp.success _ c => inferInstanceAs (Decidable (indexOk c))

/-- States reachable from `Blockchain.__init__` by the four mutating
operations. `P` restricts the peer-response lists that `resolve_conflicts`
may be run against (`fun _ => True` for unrestricted adversarial peers). -/
inductive Reach (hashStr : Block → String) (P : List PeerResp → Prop) : NodeState → Prop where
  | init (now : Nat) (st : NodeState) :
      initLedger hashStr now = some st → Reach hashStr P st
  | tx (st st' : NodeState) (sender recipient : String) (amount : Int) (i : Nat) :
      Reach hashStr P st → newTransaction st sender recipient amount = some (i, st') →
      Reach hashStr P st'
  | blk (st st' : NodeState) (b : Block) (proof : Nat) (ph : Option HashVal) (now : Nat) :
      Reach hashStr P st → newBlock hashStr st proof ph now = some (b, st') →
      Reach hashStr P st'
  | reg (st : NodeState) (netloc : String) :
      Reach hashStr P st → Reach hashStr P (registerNode st netloc)
  | res (st st' : NodeState) (resps : List PeerResp) (replaced : Bool) :
      Reach hashStr P st → P resps → resolveConflicts hashStr st resps = some (replaced, st') →
      Reach hashStr P st'

/-! ## Concrete values for witnesses and counterexamples -/

/-- A block-hash function for concrete runs; theorems quantify over all of
them, so any pick is a legitimate instantiation. -/
def dummyHash : Block → String := fun _ => "h"

/-- The genesis block created by `__init__` at time `now`. -/
def gBlock (now : Nat) : Block := ⟨1, now, [], 100, HashVal.intVal 1⟩

/-- The state right after `__init__` at time `now`. -/
def gState (now : Nat) : NodeState := ⟨[gBlock now], [], []⟩

/-- A single-block peer chain with nonsense index, trivially valid. -/
def bPeer : Block := ⟨42, 0, [], 7, HashVal.strVal "x"⟩

/-- A local two-block chain (contents irrelevant for `resolve_conflicts`). -/
def twoState : NodeState := ⟨[gBlock 0, gBlock 1], [], []⟩

/-- First block of a hash-and-proof-valid peer chain with nonsense indices:
`validProof 265 0 = true` since sha256 of `"2650"` starts `"00"`. -/
def b1x : Block := ⟨7, 0, [], 265, HashVal.strVal "p"⟩

/-- Second block: `previous_hash` matches `hashB dummyHash b1x` and its
proof 0 is valid against 265. -/
def b2x : Block := ⟨3, 0, [], 0, HashVal.strVal "h"⟩

/-- The state after adopting the `[b1x, b2x]` peer chain. -/
def stBad : NodeState := ⟨[b1x, b2x], [], []⟩

/-- A one-block state whose last proof 265 makes mining instant. -/
def stMine : NodeState := ⟨[⟨1, 0, [], 265, HashVal.intVal 1⟩], [], []⟩

/-- The block `/mine` forges from `stMine` at time 5 for node `"n"`. -/
def bMine : Block := ⟨2, 5, [⟨"0", "n", 1⟩], 0, HashVal.strVal "h"⟩

/-- The state `/mine` leaves behind from `stMine`. -/
def stMine' : NodeState := ⟨[⟨1, 0, [], 265, HashVal.intVal 1⟩, bMine], [], []⟩

/-! ## Chain validation (C2, C3) -/

theorem validChainLoop_iff (hashStr : Block → String) :
    ∀ (rest : List Block) (b : Block),
      validChainLoop hashStr b rest = true ↔ List.Chain (linked hashStr) b rest := by
  intro rest
  induction rest with
  | nil => intro b; simp [validChainLoop]
  | cons c cs ih =>
    intro b
    by_cases h1 : c.previous_hash = hashB hashStr b
    · by_cases h2 : validProof b.proof c.proof = true
      · simp [validChainLoop, h1, h2, List.chain_cons, linked, ih c]
      · simp only [Bool.not_eq_true] at h2
        simp [validChainLoop, h1, h2, List.chain_cons, linked]
    · simp [validChainLoop, h1, List.chain_cons, linked]

/-- **C2.** For a non-empty candidate chain, `valid_chain` returns true
exactly when every block after the first is `linked` to its predecessor
(its `previous_hash` equals the hash of the predecessor and
`valid_proof(predecessor.proof, block.proof)` holds), and false exactly
otherwise: hash linkage and proof-of-work continuity are the whole check. -/
theorem valid_chain_pairwise (hashStr : Block → String) (b : Block) (rest : List Block) :
    (validChain hashStr (b :: rest) = some true ↔ List.Chain (linked hashStr) b rest) ∧
    (validChain hashStr (b :: rest) = some false ↔ ¬ List.Chain (linked hashStr) b rest) := by
  have h := validChainLoop_iff hashStr rest b
  constructor
  · simpa [validChain] using h
  · rw [← h]
    simp [validChain]

/-- **C3 (amended).** `valid_chain` returns true on every one-block chain;
on a zero-block chain the initial `chain[0]` raises `IndexError` instead of
returning a boolean. -/
theorem valid_chain_degenerate (hashStr : Block → String) (b : Block) :
    validChain hashStr [b] = some true ∧ validChain hashStr [] = none :=
  ⟨rfl, rfl⟩

/-- **C3 counterexample.** On the empty chain, `valid_chain` does not
return true (or any boolean): it raises. -/
theorem valid_chain_empty_cex :
    validChain dummyHash [] = none ∧ validChain dummyHash [] ≠ some true :=
  ⟨rfl, fun h => nomatch h⟩

/-! ## Consensus trusts the reported length (C10) -/

/-- **C10.** Against a local chain of length 2, a peer response reporting
length 5 but carrying a valid one-block chain wins: the local chain is
replaced by the strictly shorter reported chain and true is returned.
`resolve_conflicts` compares the reported `length` field, never the actual
list length. -/
theorem resolve_conflicts_trusts_reported_length (hashStr : Block → String) :
    resolveConflicts hashStr twoState [PeerResp.success 5 [bPeer]] =
      some (true, ⟨[bPeer], [], []⟩) ∧
    validChain hashStr [bPeer] = some true ∧
    twoState.chain.length < 5 ∧
    [bPeer].length ≤ twoState.chain.length :=
  ⟨rfl, rfl, by decide, by decide⟩

/-! ## Consensus resolution (C1) -/

theorem validChain_isSome (hashStr : Block → String) {c : List Block} (hc : c ≠ []) :
    ∃ v, validChain hashStr c = some v := by
  cases c with
  | nil => exact absurd rfl hc
  | cons b rest => exact ⟨_, rfl⟩

theorem validChain_ne_nil (hashStr : Block → String) {c : List Block}
    (h : validChain hashStr c = some true) : c ≠ [] := by
  cases c with
  | nil => exact nomatch h
  | cons b rest => exact List.cons_ne_nil b rest

theorem resolveLoop_none_of_bad (hashStr : Block → String) :
    ∀ (resps : List PeerResp) (maxLen : Nat),
      (∀ r ∈ resps, respNonempty r) →
      (∀ r ∈ resps, goodRespB hashStr maxLen r = false) →
      resolveLoop hashStr maxLen none resps = some none := by
  intro resps
  induction resps with
  | nil => intro maxLen _ _; rfl
  | cons r rest ih =>
    intro maxLen hne hbad
    have hner : ∀ r ∈ rest, respNonempty r := fun x hx => hne x (List.mem_cons_of_mem r hx)
    have hbadr : ∀ r ∈ rest, goodRespB hashStr maxLen r = false :=
      fun x hx => hbad x (List.mem_cons_of_mem r hx)
    cases r with
    | failure => simpa [resolveLoop] using ih maxLen hner hbadr
    | success len c =>
      have hb := hbad _ (List.mem_cons_self _ _)
      simp only [goodRespB, Bool.and_eq_false_iff, decide_eq_false_iff_not] at hb
      by_cases hlt : maxLen < len
      · have hvne : validChain hashStr c ≠ some true := by
          rcases hb with hb | hb
          · exact absurd hlt hb
          · exact hb
        obtain ⟨v, hv⟩ := validChain_isSome hashStr (hne _ (List.mem_cons_self _ _))
        cases v with
        | true => exact absurd hv hvne
        | false =>
          simp only [resolveLoop, if_pos hlt, hv]
          exact ih maxLen hner hbadr
      · simp only [resolveLoop, if_neg hlt]
        exact ih maxLen hner hbadr

theorem resolveLoop_some_nonempty (hashStr : Block → String) :
    ∀ (resps : List PeerResp) (maxLen : Nat) (c : List Block), c ≠ [] →
      (∀ r ∈ resps, respNonempty r) →
      ∃ c', c' ≠ [] ∧ resolveLoop hashStr maxLen (some c) resps = some (some c') := by
  intro resps
  induction resps with
  | nil => intro maxLen c hc _; exact ⟨c, hc, rfl⟩
  | cons r rest ih =>
    intro maxLen c hc hne
    have hner : ∀ r ∈ rest, respNonempty r := fun x hx => hne x (List.mem_cons_of_mem r hx)
    cases r with
    | failure => simpa [resolveLoop] using ih maxLen c hc hner
    | success len c2 =>
      by_cases hlt : maxLen < len
      · have hc2 : c2 ≠ [] := hne _ (List.mem_cons_self _ _)
        obtain ⟨v, hv⟩ := validChain_isSome hashStr hc2
        cases v with
        | true =>
          simp only [resolveLoop, if_pos hlt, hv]
          exact ih len c2 hc2 hner
        | false =>
          simp only [resolveLoop, if_pos hlt, hv]
          exact ih maxLen c hc hner
      · simp only [resolveLoop, if_neg hlt]
        exact ih maxLen c hc hner

theorem resolveLoop_good (hashStr : Block → String) :
    ∀ (resps : List PeerResp) (maxLen : Nat),
      (∀ r ∈ resps, respNonempty r) →
      resps.any (goodRespB hashStr maxLen) = true →
      ∃ c', c' ≠ [] ∧ resolveLoop hashStr maxLen none resps = some (some c') := by
  intro resps
  induction resps with
  | nil => intro maxLen _ hany; exact nomatch hany
  | cons r rest ih =>
    intro maxLen hne hany
    have hner : ∀ r ∈ rest, respNonempty r := fun x hx => hne x (List.mem_cons_of_mem r hx)
    by_cases hg : goodRespB hashStr maxLen r = true
    · cases r with
      | failure => exact nomatch hg
      | success len c =>
        simp only [goodRespB, Bool.and_eq_true, decide_eq_true_eq] at hg
        have hc : c ≠ [] := validChain_ne_nil hashStr hg.2
        simp only [resolveLoop, if_pos hg.1, hg.2]
        exact resolveLoop_some_nonempty hashStr rest len c hc hner
    · have hanyr : rest.any (goodRespB hashStr maxLen) = true := by
        rcases (List.any_eq_true).mp hany with ⟨x, hx, hgx⟩
        rcases List.mem_cons.mp hx with hx | hx
        · exact absurd (hx ▸ hgx) hg
        · exact (List.any_eq_true).mpr ⟨x, hx, hgx⟩
      cases r with
      | failure => simpa [resolveLoop] using ih maxLen hner hanyr
      | success len c =>
        simp only [goodRespB, Bool.and_eq_true, decide_eq_true_eq, not_and] at hg
        by_cases hlt : maxLen < len
        · have hvne : validChain hashStr c ≠ some true := by
            intro hv
            exact (hg hlt) hv
          obtain ⟨v, hv⟩ := validChain_isSome hashStr (hne _ (List.mem_cons_self _ _))
          cases v with
          | true => exact absurd hv hvne
          | false =>
            simp only [resolveLoop, if_pos hlt, hv]
            exact ih maxLen hner hanyr
        · simp only [resolveLoop, if_neg hlt]
          exact ih maxLen hner hanyr

/-- **C1 (amended).** Provided every peer response carries a non-empty chain
list (as every node running this program reports), `resolve_conflicts`
replaces the local chain and returns true exactly when some response
reports a length strictly greater than the local chain's length and its
chain passes `valid_chain`; otherwise it returns false and the state is
exactly what it was, so in particular an equal reported length never
replaces the chain. (Without the proviso the call can raise instead of
returning false, see the counterexample.) -/
theorem resolve_conflicts_correct (hashStr : Block → String) (st : NodeState)
    (resps : List PeerResp) (hne : ∀ r ∈ resps, respNonempty r) :
    (resps.any (goodRespB hashStr st.chain.length) = true →
      ∃ c, c ≠ [] ∧ resolveConflicts hashStr st resps =
        some (true, ⟨c, st.current_transactions, st.nodes⟩)) ∧
    (resps.any (goodRespB hashStr st.chain.length) = false →
      resolveConflicts hashStr st resps = some (false, st)) := by
  constructor
  · intro hany
    obtain ⟨c', hc', hl⟩ := resolveLoop_good hashStr resps st.chain.length hne hany
    cases c' with
    | nil => exact absurd rfl hc'
    | cons b bs =>
      exact ⟨b :: bs, hc', by simp only [resolveConflicts, hl]⟩
  · intro hany
    have hbad : ∀ r ∈ resps, goodRespB hashStr st.chain.length r = false := by
      intro x hx
      by_contra hgx
      rw [Bool.not_eq_false] at hgx
      rw [(List.any_eq_true).mpr ⟨x, hx, hgx⟩] at hany
      exact nomatch hany
    have hl := resolveLoop_none_of_bad hashStr resps st.chain.length hne hbad
    simp only [resolveConflicts, hl]

/-- **C1 witness.** A failing peer and a 200 peer reporting exactly the
local length leave a genesis-only node untouched. -/
theorem resolve_conflicts_correct_witness :
    resolveConflicts dummyHash (gState 0) [PeerResp.failure, PeerResp.success 1 [bPeer]] =
      some (false, gState 0) :=
  (resolve_conflicts_correct dummyHash (gState 0)
    [PeerResp.failure, PeerResp.success 1 [bPeer]] (by decide)).2 (by decide)

/-- **C1 counterexample.** A peer reporting length 2 with an empty chain
list: the claim as stated demands a false return with the chain untouched
(the empty chain does not pass `valid_chain`), but `resolve_conflicts`
raises `IndexError` inside `valid_chain` instead. -/
theorem resolve_conflicts_empty_chain_cex :
    resolveConflicts dummyHash (gState 0) [PeerResp.success 2 []] = none ∧
    resolveConflicts dummyHash (gState 0) [PeerResp.success 2 []] ≠ some (false, gState 0) :=
  ⟨rfl, fun h => nomatch h⟩

/-! ## Block creation (C4) and mining (C9) -/

theorem newTransaction_inv (st : NodeState) (s r : String) (a : Int) (i : Nat) (st' : NodeState)
    (h : newTransaction st s r a = some (i, st')) :
    st' = ⟨st.chain, st.current_transactions ++ [⟨s, r, a⟩], st.nodes⟩ := by
  unfold newTransaction lastBlock at h
  cases hg : st.chain.getLast? with
  | none => simp only [hg, Option.map_none'] at h; exact nomatch h
  | some lb =>
    simp only [hg, Option.map_some', Option.some.injEq, Prod.mk.injEq] at h
    exact h.2.symm

theorem newBlock_inv (hashStr : Block → String) (st : NodeState) (proof : Nat)
    (ph : Option HashVal) (now : Nat) (b : Block) (st' : NodeState)
    (h : newBlock hashStr st proof ph now = some (b, st')) :
    b.index = st.chain.length + 1 ∧ b.timestamp = now ∧
    b.transactions = st.current_transactions ∧ b.proof = proof ∧
    st' = ⟨st.chain ++ [b], [], st.nodes⟩ := by
  unfold newBlock at h
  cases hm : (if isFalsy ph then st.chain.getLast?.map (hashB hashStr) else ph) with
  | none => rw [hm] at h; exact nomatch h
  | some v =>
    rw [hm] at h
    simp only [Option.some.injEq, Prod.mk.injEq] at h
    obtain ⟨hb, hst⟩ := h
    subst hb
    subst hst
    exact ⟨rfl, rfl, rfl, rfl, rfl⟩

theorem gState_chain_ne : (gState 0).chain ≠ [] := by decide

/-- **C4.** On a non-empty chain, `new_block(proof, previousHash)` appends a
block carrying the prior chain length plus one as index, the pending
transactions in order, the given proof, and the `previousHash` argument when
that is provided and non-falsy, else the hash of the previous last block;
the pending buffer is cleared and the appended block is returned. -/
theorem new_block_correct (hashStr : Block → String) (st : NodeState) (proof : Nat)
    (previous_hash : Option HashVal) (now : Nat) (h : st.chain ≠ []) :
    ∃ b : Block,
      newBlock hashStr st proof previous_hash now =
        some (b, ⟨st.chain ++ [b], [], st.nodes⟩) ∧
      b.index = st.chain.length + 1 ∧
      b.timestamp = now ∧
      b.transactions = st.current_transactions ∧
      b.proof = proof ∧
      (isFalsy previous_hash = true → b.previous_hash = hashB hashStr (st.chain.getLast h)) ∧
      (isFalsy previous_hash = false → some b.previous_hash = previous_hash) := by
  have hg : st.chain.getLast? = some (st.chain.getLast h) := List.getLast?_eq_getLast _ h
  by_cases hf : isFalsy previous_hash = true
  · refine ⟨⟨st.chain.length + 1, now, st.current_transactions, proof,
      hashB hashStr (st.chain.getLast h)⟩, ?_, rfl, rfl, rfl, rfl, ?_, ?_⟩
    · simp only [newBlock, hf, if_true, hg, Option.map_some']
    · intro _; rfl
    · intro hc; rw [hf] at hc; exact nomatch hc
  · rw [Bool.not_eq_true] at hf
    cases previous_hash with
    | none => exact nomatch hf
    | some v =>
      refine ⟨⟨st.chain.length + 1, now, st.current_transactions, proof, v⟩, ?_, rfl, rfl,
        rfl, rfl, ?_, ?_⟩
      · simp only [newBlock, hf, Bool.false_eq_true, if_false]
      · intro hc; rw [hf] at hc; exact nomatch hc
      · intro _; rfl

/-- **C4 witness.** `new_block(7)` on a genesis-only ledger at time 3. -/
theorem new_block_correct_witness :
    ∃ b : Block,
      newBlock dummyHash (gState 0) 7 none 3 =
        some (b, ⟨(gState 0).chain ++ [b], [], (gState 0).nodes⟩) ∧
      b.index = (gState 0).chain.length + 1 ∧
      b.timestamp = 3 ∧
      b.transactions = (gState 0).current_transactions ∧
      b.proof = 7 ∧
      (isFalsy none = true → b.previous_hash = hashB dummyHash ((gState 0).chain.getLast gState_chain_ne)) ∧
      (isFalsy none = false → some b.previous_hash = none) :=
  new_block_correct dummyHash (gState 0) 7 none 3 gState_chain_ne

/-- **C9.** Whenever `/mine` succeeds, the forged block's transactions are
exactly the pending ones followed by the reward transaction
`{sender: "0", recipient: node_identifier, amount: 1}`; in particular the
block is never empty of transactions and ends with the reward. -/
theorem mine_reward (hashStr : Block → String) (st : NodeState) (fuel : Nat) (nodeId : String)
    (now : Nat) (b : Block) (st' : NodeState)
    (h : mine hashStr st fuel nodeId now = some (b, st')) :
    b.transactions = st.current_transactions ++ [⟨"0", nodeId, 1⟩] ∧
    b.transactions ≠ [] ∧
    b.transactions.getLast? = some ⟨"0", nodeId, 1⟩ ∧
    st'.chain = st.chain ++ [b] ∧
    st'.current_transactions = [] := by
  unfold mine at h
  cases hlb : lastBlock st with
  | none => rw [hlb] at h; exact nomatch h
  | some lb =>
    rw [hlb] at h
    simp only [] at h
    cases hp : proofOfWork fuel lb.proof with
    | none => rw [hp] at h; exact nomatch h
    | some p =>
      rw [hp] at h
      simp only [] at h
      cases hnt : newTransaction st "0" nodeId 1 with
      | none => rw [hnt] at h; exact nomatch h
      | some pr =>
        rw [hnt] at h
        simp only [] at h
        obtain ⟨i, st1⟩ := pr
        have hst1 := newTransaction_inv st "0" nodeId 1 i st1 hnt
        subst hst1
        obtain ⟨hidx, hts, htx, hpf, hst'⟩ := newBlock_inv hashStr _ p none now b st' h
        subst hst'
        refine ⟨htx, ?_, ?_, rfl, rfl⟩
        · rw [htx]; exact (List.append_ne_nil_of_right_ne_nil _ (List.cons_ne_nil _ _))
        · rw [htx]; exact List.getLast?_concat _

/-- **C9 witness.** Mining on `stMine` (fuel 1, node `"n"`, time 5). -/
theorem mine_reward_witness :
    bMine.transactions = stMine.current_transactions ++ [⟨"0", "n", 1⟩] ∧
    bMine.transactions ≠ [] ∧
    bMine.transactions.getLast? = some ⟨"0", "n", 1⟩ ∧
    stMine'.chain = stMine.chain ++ [bMine] ∧
    stMine'.current_transactions = [] :=
  mine_reward dummyHash stMine 1 "n" 5 bMine stMine' (by decide)

/-! ## Proof of work (C5) -/

theorem proofOfWorkAux_finds (l q : Nat) (hq : validProof l q = true)
    (hmin : ∀ r, r < q → validProof l r = false) :
    ∀ (fuel start : Nat), start ≤ q → q < start + fuel → proofOfWorkAux fuel l start = some q := by
  intro fuel
  induction fuel with
  | zero => intro start h1 h2; omega
  | succ n ih =>
    intro start h1 h2
    by_cases hs : start = q
    · subst hs; simp [proofOfWorkAux, hq]
    · have hlt : start < q := lt_of_le_of_ne h1 hs
      simp only [proofOfWorkAux, hmin start hlt, Bool.false_eq_true, if_false]
      exact ih (start + 1) hlt (by omega)

/-- **C5.** When some proof satisfies `valid_proof` against `last_proof`,
the search `proof_of_work(last_proof)` terminates (any fuel beyond the
least solution suffices) and returns exactly the smallest such value. -/
theorem proof_of_work_least (l : Nat) (h : ∃ q, validProof l q = true) :
    validProof l (Nat.find h) = true ∧
    (∀ r, r < Nat.find h → validProof l r = false) ∧
    (∀ fuel, Nat.find h < fuel → proofOfWork fuel l = some (Nat.find h)) := by
  have hspec := Nat.find_spec h
  have hmin : ∀ r, r < Nat.find h → validProof l r = false := by
    intro r hr
    have := Nat.find_min h hr
    simpa using this
  exact ⟨hspec, hmin, fun fuel hf =>
    proofOfWorkAux_finds l (Nat.find h) hspec hmin fuel 0 (Nat.zero_le _) (by omega)⟩

/-- **C5 witness.** `proof_of_work(265)` finds 0 at once, since the digest
of `"2650"` opens with two zeros. -/
theorem proof_of_work_least_witness : proofOfWork 1 265 = some 0 := by
  have h : ∃ q, validProof 265 q = true := ⟨0, by decide⟩
  have h0 : Nat.find h = 0 := (Nat.find_eq_zero h).mpr (by decide)
  have hr := (proof_of_work_least 265 h).2.2 1 (by rw [h0]; exact Nat.zero_lt_one)
  rw [h0] at hr
  exact hr

/-! ## The difficulty predicate (C6) -/

theorem add32_lt (a b : Nat) : add32 a b < 4294967296 := Nat.mod_lt _ (by decide)

theorem shaCompress_bounded (st : Hash8) (blk : List Nat) :
    (shaCompress st blk).a < 4294967296 ∧ (shaCompress st blk).b < 4294967296 ∧
    (shaCompress st blk).c < 4294967296 ∧ (shaCompress st blk).d < 4294967296 ∧
    (shaCompress st blk).e < 4294967296 ∧ (shaCompress st blk).f < 4294967296 ∧
    (shaCompress st blk).g < 4294967296 ∧ (shaCompress st blk).h < 4294967296 :=
  ⟨add32_lt _ _, add32_lt _ _, add32_lt _ _, add32_lt _ _,
   add32_lt _ _, add32_lt _ _, add32_lt _ _, add32_lt _ _⟩

theorem sha256Words_bounded (msg : List Nat) :
    (sha256Words msg).a < 4294967296 ∧ (sha256Words msg).b < 4294967296 ∧
    (sha256Words msg).c < 4294967296 ∧ (sha256Words msg).d < 4294967296 ∧
    (sha256Words msg).e < 4294967296 ∧ (sha256Words msg).f < 4294967296 ∧
    (sha256Words msg).g < 4294967296 ∧ (sha256Words msg).h < 4294967296 := by
  have key : ∀ (bs : List (List Nat)) (st : Hash8),
      (st.a < 4294967296 ∧ st.b < 4294967296 ∧ st.c < 4294967296 ∧ st.d < 4294967296 ∧
       st.e < 4294967296 ∧ st.f < 4294967296 ∧ st.g < 4294967296 ∧ st.h < 4294967296) →
      ((bs.foldl shaCompress st).a < 4294967296 ∧ (bs.foldl shaCompress st).b < 4294967296 ∧
       (bs.foldl shaCompress st).c < 4294967296 ∧ (bs.foldl shaCompress st).d < 4294967296 ∧
       (bs.foldl shaCompress st).e < 4294967296 ∧ (bs.foldl shaCompress st).f < 4294967296 ∧
       (bs.foldl shaCompress st).g < 4294967296 ∧ (bs.foldl shaCompress st).h < 4294967296) := by
    intro bs
    induction bs with
    | nil => intro st hst; simpa only [List.foldl_nil] using hst
    | cons blk bs ih =>
      intro st _
      simp only [List.foldl_cons]
      exact ih (shaCompress st blk) (shaCompress_bounded st blk)
  exact key _ shaH0 (by decide)

theorem mulR_add_lt (acc w k : Nat) (ha : acc < 4294967296 ^ k) (hw : w < 4294967296) :
    acc * 4294967296 + w < 4294967296 ^ (k + 1) := by
  have h1 : acc * 4294967296 + w < (acc + 1) * 4294967296 := by
    have : (acc + 1) * 4294967296 = acc * 4294967296 + 4294967296 := by ring
    omega
  have h2 : (acc + 1) * 4294967296 ≤ 4294967296 ^ k * 4294967296 :=
    Nat.mul_le_mul_right _ ha
  have h3 : (4294967296:ℕ) ^ k * 4294967296 = 4294967296 ^ (k + 1) := (pow_succ 4294967296 k).symm
  omega

theorem sha256Nat_lt (msg : List Nat) : sha256Nat msg < 2 ^ 256 := by
  obtain ⟨h1, h2, h3, h4, h5, h6, h7, h8⟩ := sha256Words_bounded msg
  have e : (4294967296:ℕ) ^ 8 = 2 ^ 256 := by norm_num
  unfold sha256Nat
  simp only [List.foldl_cons, List.foldl_nil]
  rw [← e]
  refine mulR_add_lt _ _ 7 (mulR_add_lt _ _ 6 (mulR_add_lt _ _ 5 (mulR_add_lt _ _ 4
    (mulR_add_lt _ _ 3 (mulR_add_lt _ _ 2 (mulR_add_lt _ _ 1 ?_ h2) h3) h4) h5) h6) h7) h8
  simpa using h1

theorem hexChars_take_two (n : Nat) (hn : n < 2 ^ 256) :
    (hexChars n).take 2 = ['0', '0'] ↔ n < 2 ^ 248 := by
  have hx : (hexChars n).take 2 = [hexDigit (n / 16 ^ 63 % 16), hexDigit (n / 16 ^ 62 % 16)] := rfl
  have hd : ∀ d, d < 16 → (hexDigit d = '0' ↔ d = 0) := by decide
  have p63 : (0:ℕ) < 16 ^ 63 := pow_pos (by norm_num) 63
  have p62 : (0:ℕ) < 16 ^ 62 := pow_pos (by norm_num) 62
  have m63 : n / 16 ^ 63 % 16 < 16 := Nat.mod_lt _ (by norm_num)
  have m62 : n / 16 ^ 62 % 16 < 16 := Nat.mod_lt _ (by norm_num)
  have e248 : (16:ℕ) ^ 62 = 2 ^ 248 := by norm_num
  rw [hx]
  constructor
  · intro hl
    simp only [List.cons.injEq, and_true] at hl
    obtain ⟨ha, hb⟩ := hl
    have e63 : n / 16 ^ 63 % 16 = 0 := (hd _ m63).mp ha
    have e62 : n / 16 ^ 62 % 16 = 0 := (hd _ m62).mp hb
    have hn' : n < 16 ^ 64 := by
      have : (2:ℕ) ^ 256 = 16 ^ 64 := by norm_num
      omega
    have d63lt : n / 16 ^ 63 < 16 := by
      rw [Nat.div_lt_iff_lt_mul p63]
      have : (16:ℕ) * 16 ^ 63 = 16 ^ 64 := (pow_succ' 16 63).symm
      omega
    have e63' : n / 16 ^ 63 = 0 := by rw [Nat.mod_eq_of_lt d63lt] at e63; exact e63
    have lt63 : n < 16 ^ 63 := (Nat.div_eq_zero_iff p63).mp e63'
    have d62lt : n / 16 ^ 62 < 16 := by
      rw [Nat.div_lt_iff_lt_mul p62]
      have : (16:ℕ) * 16 ^ 62 = 16 ^ 63 := (pow_succ' 16 62).symm
      omega
    have e62' : n / 16 ^ 62 = 0 := by rw [Nat.mod_eq_of_lt d62lt] at e62; exact e62
    have lt62 : n < 16 ^ 62 := (Nat.div_eq_zero_iff p62).mp e62'
    omega
  · intro hsmall
    have l62 : n < 16 ^ 62 := by omega
    have l63 : n < 16 ^ 63 := by
      have : (16:ℕ) ^ 62 < 16 ^ 63 := by norm_num
      omega
    have e63' : n / 16 ^ 63 = 0 := (Nat.div_eq_zero_iff p63).mpr l63
    have e62' : n / 16 ^ 62 = 0 := (Nat.div_eq_zero_iff p62).mpr l62
    rw [e63', e62']
    decide

/-- **C6.** `valid_proof(last_proof, proof)` holds exactly when the
hexadecimal SHA-256 digest of the concatenated decimal forms of the two
proofs starts with the two-character difficulty string `"00"`,
equivalently when the 256-bit digest value has 8 leading zero bits
(is below `2 ^ 248`). -/
theorem valid_proof_iff (last_proof proof : Nat) :
    (validProof last_proof proof = true ↔
      (sha256hexChars (strBytes (toString last_proof ++ toString proof))).take 2 = ['0', '0']) ∧
    (validProof last_proof proof = true ↔
      sha256Nat (strBytes (toString last_proof ++ toString proof)) < 2 ^ 248) := by
  have h1 : validProof last_proof proof = true ↔
      (sha256hexChars (strBytes (toString last_proof ++ toString proof))).take 2 = ['0', '0'] := by
    unfold validProof
    exact beq_iff_eq
  exact ⟨h1, h1.trans (hexChars_take_two _ (sha256Nat_lt _))⟩

/-! ## Reachable-state invariants (C7, C8) -/

theorem resolveLoop_best_mem (hashStr : Block → String) :
    ∀ (resps : List PeerResp) (maxLen : Nat) (best best' : Option (List Block)),
      resolveLoop hashStr maxLen best resps = some best' →
      best' = best ∨ ∃ len c, PeerResp.success len c ∈ resps ∧ best' = some c := by
  intro resps
  induction resps with
  | nil =>
    intro maxLen best best' h
    simp only [resolveLoop, Option.some.injEq] at h
    exact Or.inl h.symm
  | cons r rest ih =>
    intro maxLen best best' h
    cases r with
    | failure =>
      rcases ih maxLen best best' (by simpa only [resolveLoop] using h) with h1 | ⟨len, c, hm, hc⟩
      · exact Or.inl h1
      · exact Or.inr ⟨len, c, List.mem_cons_of_mem _ hm, hc⟩
    | success len c =>
      simp only [resolveLoop] at h
      by_cases hlt : maxLen < len
      · rw [if_pos hlt] at h
        cases hv : validChain hashStr c with
        | none => rw [hv] at h; exact nomatch h
        | some bv =>
          rw [hv] at h
          cases bv with
          | true =>
            rcases ih len (some c) best' h with h1 | ⟨len2, c2, hm, hc⟩
            · exact Or.inr ⟨len, c, List.mem_cons_self _ _, h1⟩
            · exact Or.inr ⟨len2, c2, List.mem_cons_of_mem _ hm, hc⟩
          | false =>
            rcases ih maxLen best best' h with h1 | ⟨len2, c2, hm, hc⟩
            · exact Or.inl h1
            · exact Or.inr ⟨len2, c2, List.mem_cons_of_mem _ hm, hc⟩
      · rw [if_neg hlt] at h
        rcases ih maxLen best best' h with h1 | ⟨len2, c2, hm, hc⟩
        · exact Or.inl h1
        · exact Or.inr ⟨len2, c2, List.mem_cons_of_mem _ hm, hc⟩

theorem resolveConflicts_cases (hashStr : Block → String) (st : NodeState)
    (resps : List PeerResp) (replaced : Bool) (st' : NodeState)
    (h : resolveConflicts hashStr st resps = some (replaced, st')) :
    st' = st ∨ ∃ b c, st'.chain = b :: c := by
  unfold resolveConflicts at h
  cases hr : resolveLoop hashStr st.chain.length none resps with
  | none => rw [hr] at h; exact nomatch h
  | some best =>
    rw [hr] at h
    cases best with
    | none =>
      simp only [Option.some.injEq, Prod.mk.injEq] at h
      exact Or.inl h.2.symm
    | some c =>
      cases c with
      | nil =>
        simp only [Option.some.injEq, Prod.mk.injEq] at h
        exact Or.inl h.2.symm
      | cons b bs =>
        simp only [Option.some.injEq, Prod.mk.injEq] at h
        exact Or.inr ⟨b, bs, by rw [← h.2]⟩

theorem resolveConflicts_chain_src (hashStr : Block → String) (st : NodeState)
    (resps : List PeerResp) (replaced : Bool) (st' : NodeState)
    (h : resolveConflicts hashStr st resps = some (replaced, st')) :
    st'.chain = st.chain ∨ ∃ len c, PeerResp.success len c ∈ resps ∧ st'.chain = c := by
  unfold resolveConflicts at h
  cases hr : resolveLoop hashStr st.chain.length none resps with
  | none => rw [hr] at h; exact nomatch h
  | some best =>
    rw [hr] at h
    cases best with
    | none =>
      simp only [Option.some.injEq, Prod.mk.injEq] at h
      exact Or.inl (by rw [← h.2])
    | some c =>
      cases c with
      | nil =>
        simp only [Option.some.injEq, Prod.mk.injEq] at h
        exact Or.inl (by rw [← h.2])
      | cons b bs =>
        simp only [Option.some.injEq, Prod.mk.injEq] at h
        rcases resolveLoop_best_mem hashStr resps st.chain.length none (some (b :: bs)) hr with
          h1 | ⟨len, c2, hm, hc⟩
        · exact nomatch h1
        · injection hc with hbc
          exact Or.inr ⟨len, c2, hm, by rw [← h.2, ← hbc]⟩

/-- **C8.** A fresh ledger consists of exactly the genesis block (index 1,
proof 100, sentinel `previous_hash = 1`), and the chain stays non-empty in
every reachable state, whatever peers report. -/
theorem genesis_and_chain_never_empty (hashStr : Block → String) (now : Nat) :
    initLedger hashStr now = some (gState now) ∧
    (gState now).chain = [gBlock now] ∧
    (gState now).chain.length = 1 ∧
    (gBlock now).index = 1 ∧ (gBlock now).proof = 100 ∧
    (gBlock now).previous_hash = HashVal.intVal 1 ∧
    (∀ (P : List PeerResp → Prop) (st : NodeState), Reach hashStr P st → st.chain ≠ []) := by
  refine ⟨rfl, rfl, rfl, rfl, rfl, rfl, ?_⟩
  intro P st h
  induction h with
  | init now' st' hinit =>
    have h0 : initLedger hashStr now' = some (gState now') := rfl
    rw [h0, Option.some.injEq] at hinit
    rw [← hinit]
    exact List.cons_ne_nil _ _
  | tx st st' s r a i hst hop ih =>
    rw [newTransaction_inv st s r a i st' hop]
    exact ih
  | blk st st' b p ph now' hst hop ih =>
    obtain ⟨-, -, -, -, hst'⟩ := newBlock_inv hashStr st p ph now' b st' hop
    rw [hst']
    exact List.append_ne_nil_of_right_ne_nil _ (List.cons_ne_nil _ _)
  | reg st netloc hst ih =>
    unfold registerNode
    split
    · exact ih
    · exact ih
  | res st st' resps replaced hst hP hop ih =>
    rcases resolveConflicts_cases hashStr st resps replaced st' hop with heq | ⟨b, c, hchain⟩
    · rw [heq]; exact ih
    · rw [hchain]; exact List.cons_ne_nil _ _

/-- **C8 witness.** The freshly initialized state is reachable and its
chain is non-empty. -/
theorem genesis_and_chain_never_empty_witness : (gState 0).chain ≠ [] :=
  (genesis_and_chain_never_empty dummyHash 0).2.2.2.2.2.2 (fun _ => True) (gState 0)
    (Reach.init 0 (gState 0) rfl)

theorem indexOk_append (c : List Block) (b : Block) (hc : indexOk c)
    (hb : b.index = c.length + 1) : indexOk (c ++ [b]) := by
  intro i hi
  rw [List.get_eq_getElem]
  simp only [List.length_append, List.length_singleton] at hi
  by_cases h : i < c.length
  · rw [List.getElem_append_left h]
    have := hc i h
    rw [List.get_eq_getElem] at this
    exact this
  · have hieq : i = c.length := by omega
    rw [List.getElem_concat_length _ _ _ hieq]
    omega

/-- **C7 (amended).** In every state reachable when the chains reported by
peers themselves satisfy the index invariant, every block satisfies
`chain[i].index == i + 1`; `valid_chain` does not inspect indices, so the
restriction on adopted peer chains is needed (see the counterexample). -/
theorem index_invariant (hashStr : Block → String) (st : NodeState)
    (h : Reach hashStr (fun resps => ∀ r ∈ resps, respIndexOk r) st) : indexOk st.chain := by
  induction h with
  | init now' st' hinit =>
    have h0 : initLedger hashStr now' = some (gState now') := rfl
    rw [h0, Option.some.injEq] at hinit
    rw [← hinit]
    intro i hi
    have hi1 : i < 1 := hi
    have : i = 0 := by omega
    subst this
    rfl
  | tx st st' s r a i hst hop ih =>
    rw [newTransaction_inv st s r a i st' hop]
    exact ih
  | blk st st' b p ph now' hst hop ih =>
    obtain ⟨hidx, -, -, -, hst'⟩ := newBlock_inv hashStr st p ph now' b st' hop
    rw [hst']
    exact indexOk_append st.chain b ih hidx
  | reg st netloc hst ih =>
    unfold registerNode
    split
    · exact ih
    · exact ih
  | res st st' resps replaced hst hP hop ih =>
    rcases resolveConflicts_chain_src hashStr st resps replaced st' hop with heq | ⟨len, c, hm, hchain⟩
    · rw [heq]; exact ih
    · rw [hchain]
      exact hP (PeerResp.success len c) hm

/-- **C7 witness.** The invariant holds in the freshly initialized state. -/
theorem index_invariant_witness : indexOk (gState 0).chain :=
  index_invariant dummyHash (gState 0) (Reach.init 0 (gState 0) rfl)

/-- **C7 counterexample.** From a fresh node, one `resolve_conflicts` call
against a peer reporting the strictly longer, `valid_chain`-passing chain
`[b1x, b2x]` (hash-linked, proof-of-work-valid, but with indices 7 and 3)
reaches a state violating `chain[i].index == i + 1`. -/
theorem index_invariant_cex :
    Reach dummyHash (fun _ => True) stBad ∧
    validChain dummyHash stBad.chain = some true ∧
    (gState 0).chain.length < stBad.chain.length ∧
    ¬ indexOk stBad.chain := by
  refine ⟨?_, by decide, by decide, by decide⟩
  exact Reach.res (gState 0) stBad [PeerResp.success 2 [b1x, b2x]] true
    (Reach.init 0 (gState 0) rfl) trivial (by decide)
